import Mathlib

/-!
Verification of the bad-pixel-mask generation module
(`jwst_reffiles/bad_pixel_mask/bad_pixel_mask.py`).

The embedding below translates the pixel-level algorithms of the source
file into Lean.  Two-dimensional images are modelled as total functions
from `(row, column)` coordinates (`Nat × Nat`) to values, together with
explicit dimensions where a claim needs them; signal values use `ℚ`
(the source works with floating point rates, whose arithmetic on the
inputs considered here is exact), flag maps use `Int`.  NumPy slice
assignments are modelled through an explicit Python-slice helper so that
negative slice bounds behave exactly as in the source.
-/

namespace BadPixelMask

/-- Python index normalisation for a slice endpoint on an axis of length
`len`: a negative endpoint counts from the end of the axis. -/
def pyIdx (len : Nat) (i : Int) : Int :=
  if i < 0 then (len : Int) + i else i

/-- Membership of index `j` in the Python slice `s : t` of an axis of
length `len` (the semantics of `a[s:t]`): after normalising negative
endpoints, the slice covers indices from `max start 0` (inclusive) to
`min stop len` (exclusive). -/
def pySliceMem (len : Nat) (s t : Int) (j : Nat) : Bool :=
  let lo := max (pyIdx len s) 0
  let hi := min (pyIdx len t) (len : Int)
  decide (lo ≤ (j : Int)) && decide ((j : Int) < hi)

theorem pySliceMem_iff (len : Nat) (s t : Int) (j : Nat) :
    pySliceMem len s t j = true ↔
      max (pyIdx len s) 0 ≤ (j : Int) ∧ (j : Int) < min (pyIdx len t) (len : Int) := by
  simp [pySliceMem]

/-! ### `get_max_dead_norm_signal_default` (source lines 733-770) -/

/-- The NIRCam detector names of the per-detector default table. -/
def nircam_detectors : List String :=
  ["NRCA1", "NRCA2", "NRCA3", "NRCA4", "NRCALONG",
   "NRCB1", "NRCB2", "NRCB3", "NRCB4", "NRCBLONG"]

/-- The per-detector default values paired with `nircam_detectors`. -/
def nircam_defaults : List ℚ :=
  [25, 25, 30, 30, 40,
   25, 25, 25, 25, 50]

/-- Python `str.lower()` on the ASCII strings the source compares. -/
def pyLower (s : String) : String := ⟨s.data.map Char.toLower⟩

/-- Python `==` between a plain list of strings and a string: the two
operands have different types, so the comparison is always `False`. -/
def pyListEqStr (_l : List String) (_s : String) : Bool := false

/-- A Python `bool` used as a sequence index: `False` is `0`, `True` is `1`. -/
def pyBoolIdx (b : Bool) : Nat := if b then 1 else 0

/-- `get_max_dead_norm_signal_default(instrument, detector,
normalization_method)`.  The source computes
`defaults[detectors == detector]`; `detectors` is a Python list and
`detector` a string, so the comparison is `False` and the indexing
always yields element `0` of `defaults`. -/
def get_max_dead_norm_signal_default (instrument detector normalization_method : String) : ℚ :=
  if instrument = "NIRCAM" && normalization_method = "none" then
    nircam_defaults.getD (pyBoolIdx (pyListEqStr nircam_detectors detector)) 0
  else
    1/20

/-! ### `reference_pixel_map` (source lines 969-996) -/

/-- `reference_pixel_map(dimensions, instrument_name)`: zeros, then the
slice assignments `ref_map[:, 0:4] = 1`, `ref_map[:, xd-4:xd] = 1`, and,
when the instrument is not MIRI, `ref_map[0:4, :] = 1` and
`ref_map[yd-4:yd, :] = 1`.  All assignments write `1`, so a pixel is `1`
exactly when one of the written regions covers it. -/
def reference_pixel_map (yd xd : Nat) (instrument_name : String) :
    Nat × Nat → Int := fun p =>
  let colFlag := pySliceMem xd 0 4 p.2 || pySliceMem xd ((xd : Int) - 4) xd p.2
  let rowFlag := pySliceMem yd 0 4 p.1 || pySliceMem yd ((yd : Int) - 4) yd p.1
  if colFlag || (!(pyLower instrument_name == "miri") && rowFlag) then 1 else 0

/-! ### `pad_with_refpix` (source lines 842-866) and `science_pixels`
(source lines 1115-1143, two-dimensional branch) -/

/-- A two-dimensional image: explicit dimensions together with a total
value function on `(row, column)` coordinates. -/
structure Image where
  ydim : Nat
  xdim : Nat
  val : Nat × Nat → ℚ

/-- `pad_with_refpix(data, instrument_name)`: allocate a zero array that
is 8 larger on the column axis (and on the row axis except for MIRI) and
copy `data` into the interior slice `[4:-4]`. -/
def pad_with_refpix (data : Image) (instrument_name : String) : Image :=
  if pyLower instrument_name ≠ "miri" then
    { ydim := data.ydim + 8
      xdim := data.xdim + 8
      val := fun p =>
        if pySliceMem (data.ydim + 8) 4 (-4) p.1 && pySliceMem (data.xdim + 8) 4 (-4) p.2 then
          data.val (p.1 - 4, p.2 - 4)
        else 0 }
  else
    { ydim := data.ydim
      xdim := data.xdim + 8
      val := fun p =>
        if pySliceMem (data.xdim + 8) 4 (-4) p.2 then data.val (p.1, p.2 - 4) else 0 }

/-- `science_pixels(data, instrument_name)` for a two-dimensional input:
the slice `data[4:-4, 4:-4]` (MIRI: `data[:, 4:-4]`), i.e. dimensions
shrink by 8 and values shift by 4 on the sliced axes. -/
def science_pixels (data : Image) (instrument_name : String) : Image :=
  if pyLower instrument_name ≠ "miri" then
    { ydim := data.ydim - 8
      xdim := data.xdim - 8
      val := fun p => data.val (p.1 + 4, p.2 + 4) }
  else
    { ydim := data.ydim
      xdim := data.xdim - 8
      val := fun p => data.val (p.1, p.2 + 4) }

/-! ### Theorems for the static maps and the default lookup -/

/-- C3: `get_max_dead_norm_signal_default` evaluated at the inputs the
claim names.  The source indexes `defaults[detectors == detector]`, and
the list-against-string comparison is always `False` (index `0`), so
every NIRCam detector under normalization `'none'` receives the first
table entry `25.0` instead of its own table value (the claim expects
`30.0` for NRCA3 and `50.0` for NRCBLONG); combinations outside the
table do fall back to `0.05`. -/
theorem get_max_dead_norm_signal_default_eval :
    get_max_dead_norm_signal_default "NIRCAM" "NRCA3" "none" = 25 ∧
    get_max_dead_norm_signal_default "NIRCAM" "NRCBLONG" "none" = 25 ∧
    get_max_dead_norm_signal_default "NIRCAM" "NRCA1" "none" = 25 ∧
    get_max_dead_norm_signal_default "NIRISS" "NIS" "none" = 1/20 ∧
    get_max_dead_norm_signal_default "NIRCAM" "NRCA3" "smoothed" = 1/20 := by
  refine ⟨?_, ?_, ?_, ?_, ?_⟩ <;>
    · norm_num [get_max_dead_norm_signal_default, nircam_defaults, pyListEqStr, pyBoolIdx]
      try decide

/-- C9: for any shape with both dimensions at least 8, the reference
pixel map flags exactly the outer four columns, plus the outer four rows
for every instrument other than MIRI, and flags nothing else (every
pixel holds `0` or `1`). -/
theorem reference_pixel_map_spec (yd xd : Nat) (inst : String) (y x : Nat)
    (hyd : 8 ≤ yd) (hxd : 8 ≤ xd) (hy : y < yd) (hx : x < xd) :
    (reference_pixel_map yd xd inst (y, x) = 1 ↔
      (x < 4 ∨ xd - 4 ≤ x) ∨ (pyLower inst ≠ "miri" ∧ (y < 4 ∨ yd - 4 ≤ y))) ∧
    (reference_pixel_map yd xd inst (y, x) = 0 ∨ reference_pixel_map yd xd inst (y, x) = 1) := by
  have hcol : (pySliceMem xd 0 4 x || pySliceMem xd ((xd : Int) - 4) xd x) = true ↔
      (x < 4 ∨ xd - 4 ≤ x) := by
    simp only [Bool.or_eq_true, pySliceMem_iff, pyIdx]
    split_ifs <;> omega
  have hrow : (pySliceMem yd 0 4 y || pySliceMem yd ((yd : Int) - 4) yd y) = true ↔
      (y < 4 ∨ yd - 4 ≤ y) := by
    simp only [Bool.or_eq_true, pySliceMem_iff, pyIdx]
    split_ifs <;> omega
  have hval : reference_pixel_map yd xd inst (y, x) =
      (if (pySliceMem xd 0 4 x || pySliceMem xd ((xd : Int) - 4) xd x) ||
          (!(pyLower inst == "miri") &&
            (pySliceMem yd 0 4 y || pySliceMem yd ((yd : Int) - 4) yd y)) then (1 : Int) else 0) := rfl
  constructor
  · rw [hval]
    split_ifs with hc
    · refine ⟨fun _ => ?_, fun _ => rfl⟩
      rcases Bool.or_eq_true_iff.mp hc with h | h
      · exact Or.inl (hcol.mp h)
      · rcases Bool.and_eq_true_iff.mp h with ⟨hne, hr⟩
        refine Or.inr ⟨fun he => ?_, hrow.mp hr⟩
        rw [he] at hne
        simp at hne
    · refine ⟨fun h => absurd h (by norm_num), fun h => absurd ?_ hc⟩
      rcases h with h | ⟨hne, h⟩
      · exact Bool.or_eq_true_iff.mpr (Or.inl (hcol.mpr h))
      · refine Bool.or_eq_true_iff.mpr (Or.inr (Bool.and_eq_true_iff.mpr ⟨?_, hrow.mpr h⟩))
        simp [hne]
  · rw [hval]
    split_ifs <;> simp

/-- Witness for C9 at a concrete MIRI shape: an interior pixel away from
the outer four columns is unflagged even though it lies in the outer
four rows (MIRI has no row reference pixels). -/
theorem reference_pixel_map_spec_witness :
    reference_pixel_map 8 12 "MIRI" (1, 6) = 0 := by
  have h := reference_pixel_map_spec 8 12 "MIRI" 1 6 (by norm_num) (by norm_num)
    (by norm_num) (by norm_num)
  exact h.2.resolve_right (fun he => absurd (h.1.mp he) (by decide))

/-- C10: stripping the science region back out of a padded image returns
the original image (dimensions and every in-bounds pixel), and every
border pixel added by the padding (four columns on each side, plus four
rows top and bottom except for MIRI) is zero in the padded result. -/
theorem pad_science_round_trip (data : Image) (inst : String) :
    (science_pixels (pad_with_refpix data inst) inst).ydim = data.ydim ∧
    (science_pixels (pad_with_refpix data inst) inst).xdim = data.xdim ∧
    (∀ y x, y < data.ydim → x < data.xdim →
      (science_pixels (pad_with_refpix data inst) inst).val (y, x) = data.val (y, x)) ∧
    (∀ y x, y < (pad_with_refpix data inst).ydim → x < (pad_with_refpix data inst).xdim →
      (x < 4 ∨ data.xdim + 4 ≤ x ∨ (pyLower inst ≠ "miri" ∧ (y < 4 ∨ data.ydim + 4 ≤ y))) →
      (pad_with_refpix data inst).val (y, x) = 0) := by
  by_cases hm : pyLower inst = "miri"
  · have hm' : ¬ pyLower inst ≠ "miri" := by simpa using hm
    refine ⟨by simp [science_pixels, pad_with_refpix, hm'],
            by simp [science_pixels, pad_with_refpix, hm'], ?_, ?_⟩
    · intro y x hy hx
      simp only [science_pixels, pad_with_refpix, if_neg hm']
      have hcond : pySliceMem (data.xdim + 8) 4 (-4) (x + 4) = true := by
        rw [pySliceMem_iff]
        simp only [pyIdx]
        split_ifs <;> push_cast <;> omega
      simp only [hcond]
      norm_num
    · intro y x _ hx hborder
      simp only [pad_with_refpix, if_neg hm'] at hx ⊢
      have hxout : x < 4 ∨ data.xdim + 4 ≤ x := by
        rcases hborder with h | h | ⟨hne, _⟩
        · exact Or.inl h
        · exact Or.inr h
        · exact absurd hm hne
      have hfalse : pySliceMem (data.xdim + 8) 4 (-4) x = false := by
        rw [Bool.eq_false_iff, Ne, pySliceMem_iff]
        simp only [pyIdx]
        split_ifs <;> push_cast <;> omega
      simp [hfalse]
  · have hm' : pyLower inst ≠ "miri" := hm
    refine ⟨by simp [science_pixels, pad_with_refpix, hm'],
            by simp [science_pixels, pad_with_refpix, hm'], ?_, ?_⟩
    · intro y x hy hx
      simp only [science_pixels, pad_with_refpix, if_pos hm']
      have hcy : pySliceMem (data.ydim + 8) 4 (-4) (y + 4) = true := by
        rw [pySliceMem_iff]
        simp only [pyIdx]
        split_ifs <;> push_cast <;> omega
      have hcx : pySliceMem (data.xdim + 8) 4 (-4) (x + 4) = true := by
        rw [pySliceMem_iff]
        simp only [pyIdx]
        split_ifs <;> push_cast <;> omega
      simp only [hcy, hcx]
      norm_num
    · intro y x hy hx hborder
      simp only [pad_with_refpix, if_pos hm'] at hy hx ⊢
      have hfalse : (pySliceMem (data.ydim + 8) 4 (-4) y &&
          pySliceMem (data.xdim + 8) 4 (-4) x) = false := by
        rcases hborder with h | h | ⟨_, h⟩
        · have hone : pySliceMem (data.xdim + 8) 4 (-4) x = false := by
            rw [Bool.eq_false_iff, Ne, pySliceMem_iff]
            simp only [pyIdx]
            split_ifs <;> push_cast <;> omega
          simp [hone]
        · have hone : pySliceMem (data.xdim + 8) 4 (-4) x = false := by
            rw [Bool.eq_false_iff, Ne, pySliceMem_iff]
            simp only [pyIdx]
            split_ifs <;> push_cast <;> omega
          simp [hone]
        · have hone : pySliceMem (data.ydim + 8) 4 (-4) y = false := by
            rw [Bool.eq_false_iff, Ne, pySliceMem_iff]
            simp only [pyIdx]
            split_ifs <;> push_cast <;> omega
          simp [hone]
      simp [hfalse]

/-- A small concrete image for the round-trip witness. -/
def exImage : Image := ⟨2, 2, fun p => ((p.1 * 10 + p.2 : Nat) : ℚ)⟩

/-- Witness for C10 at a concrete non-MIRI image: the round trip restores
a pixel and the shape, and an added border pixel is zero. -/
theorem pad_science_round_trip_witness :
    (science_pixels (pad_with_refpix exImage "NIRCAM") "NIRCAM").val (1, 1) = exImage.val (1, 1) ∧
    (science_pixels (pad_with_refpix exImage "NIRCAM") "NIRCAM").ydim = exImage.ydim ∧
    (pad_with_refpix exImage "NIRCAM").val (0, 5) = 0 := by
  refine ⟨(pad_science_round_trip exImage "NIRCAM").2.2.1 1 1 (by decide) (by decide),
          (pad_science_round_trip exImage "NIRCAM").1,
          (pad_science_round_trip exImage "NIRCAM").2.2.2 0 5 (by decide) (by decide)
            (Or.inr (Or.inr ⟨by decide, Or.inl (by decide)⟩))⟩

/-! ### `get_adjacent_pixels` (source lines 649-705) -/

/-- `get_adjacent_pixels(x_val, y_val, x_dim, y_dim)`: the exact branch
structure of the source, returning the pair of coordinate arrays
`(adj_x, adj_y)`.  For a coordinate outside the grid no source branch
may match (the source would fail on an unbound local); the embedding
returns empty arrays there. -/
def get_adjacent_pixels (x_val y_val x_dim y_dim : Int) : List Int × List Int :=
  if x_val > 0 ∧ x_val < x_dim - 1 then
    if y_val > 0 ∧ y_val < y_dim - 1 then
      ([x_val, x_val + 1, x_val, x_val - 1], [y_val + 1, y_val, y_val - 1, y_val])
    else if y_val = 0 then
      ([x_val, x_val + 1, x_val - 1], [y_val + 1, y_val, y_val])
    else if y_val = y_dim - 1 then
      ([x_val + 1, x_val, x_val - 1], [y_val, y_val - 1, y_val])
    else ([], [])
  else if x_val = 0 then
    if y_val > 0 ∧ y_val < y_dim - 1 then
      ([x_val, x_val + 1, x_val], [y_val + 1, y_val, y_val - 1])
    else if y_val = 0 then
      ([x_val, x_val + 1], [y_val + 1, y_val])
    else if y_val = y_dim - 1 then
      ([x_val + 1, x_val], [y_val, y_val - 1])
    else ([], [])
  else if x_val = x_dim - 1 then
    if y_val > 0 ∧ y_val < y_dim - 1 then
      ([x_val, x_val, x_val - 1], [y_val + 1, y_val - 1, y_val])
    else if y_val = 0 then
      ([x_val, x_val - 1], [y_val + 1, y_val])
    else if y_val = y_dim - 1 then
      ([x_val, x_val - 1], [y_val - 1, y_val])
    else ([], [])
  else ([], [])

/-- The `(x, y)` coordinate pairs returned by `get_adjacent_pixels`
(that is, `zip(adj_x, adj_y)`). -/
def adjacentPairs (x y w h : Int) : List (Int × Int) :=
  (get_adjacent_pixels x y w h).1.zip (get_adjacent_pixels x y w h).2

/-- Membership of an `(x, y)` coordinate in the `[0,w) × [0,h)` grid. -/
def inGrid (w h : Int) (q : Int × Int) : Bool :=
  decide (0 ≤ q.1) && decide (q.1 < w) && decide (0 ≤ q.2) && decide (q.2 < h)

/-- C4 counterexample: on a 1×1 grid (width = height = 1, so the claim
as stated applies) the source's `x_val == 0` branch still emits the
coordinate `x_val + 1` and `y_val + 1`, so pixel `(0, 0)` receives
neighbours outside the grid. -/
theorem get_adjacent_pixels_cex :
    (adjacentPairs 0 0 1 1).all (fun q => inGrid 1 1 q) = false := by decide

/-- C4 (amended to grids with both dimensions at least 2): the returned
pairs are exactly the in-bounds members of the up/right/down/left
candidate list — in particular all returned coordinates are in bounds —
and their number is 4 for interior pixels, 3 on an edge, 2 in a
corner. -/
theorem get_adjacent_pixels_spec (w h x y : Int)
    (hw : 2 ≤ w) (hh : 2 ≤ h) (hx0 : 0 ≤ x) (hxw : x < w) (hy0 : 0 ≤ y) (hyh : y < h) :
    adjacentPairs x y w h =
      ([(x, y + 1), (x + 1, y), (x, y - 1), (x - 1, y)]).filter (inGrid w h) ∧
    (adjacentPairs x y w h).length =
      (if x = 0 ∨ x = w - 1 then 3 else 4) - (if y = 0 ∨ y = h - 1 then 1 else 0) := by
  by_cases hxi : x > 0 ∧ x < w - 1
  · by_cases hyi : y > 0 ∧ y < h - 1
    · have e : adjacentPairs x y w h = [(x, y + 1), (x + 1, y), (x, y - 1), (x - 1, y)] := by
        unfold adjacentPairs get_adjacent_pixels
        rw [if_pos hxi, if_pos hyi]
        rfl
      refine ⟨?_, ?_⟩
      · rw [e]
        simp only [List.filter_cons, List.filter_nil, inGrid, Bool.and_eq_true,
          decide_eq_true_eq]
        split_ifs <;> first | rfl | (exfalso; omega)
      · rw [e]
        simp only [List.length_cons, List.length_nil]
        split_ifs <;> omega
    · by_cases hy0' : y = 0
      · have e : adjacentPairs x y w h = [(x, y + 1), (x + 1, y), (x - 1, y)] := by
          unfold adjacentPairs get_adjacent_pixels
          rw [if_pos hxi, if_neg hyi, if_pos hy0']
          rfl
        refine ⟨?_, ?_⟩
        · rw [e]
          simp only [List.filter_cons, List.filter_nil, inGrid, Bool.and_eq_true,
            decide_eq_true_eq]
          split_ifs <;> first | rfl | (exfalso; omega)
        · rw [e]
          simp only [List.length_cons, List.length_nil]
          split_ifs <;> omega
      · have hyl : y = h - 1 := by omega
        have e : adjacentPairs x y w h = [(x + 1, y), (x, y - 1), (x - 1, y)] := by
          unfold adjacentPairs get_adjacent_pixels
          rw [if_pos hxi, if_neg hyi, if_neg hy0', if_pos hyl]
          rfl
        refine ⟨?_, ?_⟩
        · rw [e]
          simp only [List.filter_cons, List.filter_nil, inGrid, Bool.and_eq_true,
            decide_eq_true_eq]
          split_ifs <;> first | rfl | (exfalso; omega)
        · rw [e]
          simp only [List.length_cons, List.length_nil]
          split_ifs <;> omega
  · by_cases hx0' : x = 0
    · by_cases hyi : y > 0 ∧ y < h - 1
      · have e : adjacentPairs x y w h = [(x, y + 1), (x + 1, y), (x, y - 1)] := by
          unfold adjacentPairs get_adjacent_pixels
          rw [if_neg hxi, if_pos hx0', if_pos hyi]
          rfl
        refine ⟨?_, ?_⟩
        · rw [e]
          simp only [List.filter_cons, List.filter_nil, inGrid, Bool.and_eq_true,
            decide_eq_true_eq]
          split_ifs <;> first | rfl | (exfalso; omega)
        · rw [e]
          simp only [List.length_cons, List.length_nil]
          split_ifs <;> omega
      · by_cases hy0' : y = 0
        · have e : adjacentPairs x y w h = [(x, y + 1), (x + 1, y)] := by
            unfold adjacentPairs get_adjacent_pixels
            rw [if_neg hxi, if_pos hx0', if_neg hyi, if_pos hy0']
            rfl
          refine ⟨?_, ?_⟩
          · rw [e]
            simp only [List.filter_cons, List.filter_nil, inGrid, Bool.and_eq_true,
              decide_eq_true_eq]
            split_ifs <;> first | rfl | (exfalso; omega)
          · rw [e]
            simp only [List.length_cons, List.length_nil]
            split_ifs <;> omega
        · have hyl : y = h - 1 := by omega
          have e : adjacentPairs x y w h = [(x + 1, y), (x, y - 1)] := by
            unfold adjacentPairs get_adjacent_pixels
            rw [if_neg hxi, if_pos hx0', if_neg hyi, if_neg hy0', if_pos hyl]
            rfl
          refine ⟨?_, ?_⟩
          · rw [e]
            simp only [List.filter_cons, List.filter_nil, inGrid, Bool.and_eq_true,
              decide_eq_true_eq]
            split_ifs <;> first | rfl | (exfalso; omega)
          · rw [e]
            simp only [List.length_cons, List.length_nil]
            split_ifs <;> omega
    · have hxl : x = w - 1 := by omega
      by_cases hyi : y > 0 ∧ y < h - 1
      · have e : adjacentPairs x y w h = [(x, y + 1), (x, y - 1), (x - 1, y)] := by
          unfold adjacentPairs get_adjacent_pixels
          rw [if_neg hxi, if_neg hx0', if_pos hxl, if_pos hyi]
          rfl
        refine ⟨?_, ?_⟩
        · rw [e]
          simp only [List.filter_cons, List.filter_nil, inGrid, Bool.and_eq_true,
            decide_eq_true_eq]
          split_ifs <;> first | rfl | (exfalso; omega)
        · rw [e]
          simp only [List.length_cons, List.length_nil]
          split_ifs <;> omega
      · by_cases hy0' : y = 0
        · have e : adjacentPairs x y w h = [(x, y + 1), (x - 1, y)] := by
            unfold adjacentPairs get_adjacent_pixels
            rw [if_neg hxi, if_neg hx0', if_pos hxl, if_neg hyi, if_pos hy0']
            rfl
          refine ⟨?_, ?_⟩
          · rw [e]
            simp only [List.filter_cons, List.filter_nil, inGrid, Bool.and_eq_true,
              decide_eq_true_eq]
            split_ifs <;> first | rfl | (exfalso; omega)
          · rw [e]
            simp only [List.length_cons, List.length_nil]
            split_ifs <;> omega
        · have hyl : y = h - 1 := by omega
          have e : adjacentPairs x y w h = [(x, y - 1), (x - 1, y)] := by
            unfold adjacentPairs get_adjacent_pixels
            rw [if_neg hxi, if_neg hx0', if_pos hxl, if_neg hyi, if_neg hy0', if_pos hyl]
            rfl
          refine ⟨?_, ?_⟩
          · rw [e]
            simp only [List.filter_cons, List.filter_nil, inGrid, Bool.and_eq_true,
              decide_eq_true_eq]
            split_ifs <;> first | rfl | (exfalso; omega)
          · rw [e]
            simp only [List.length_cons, List.length_nil]
            split_ifs <;> omega

/-- Witness for C4 at the claim's concrete instance: corner `(0, 0)` of a
5×5 grid returns exactly the neighbour set `{(1,0), (0,1)}`. -/
theorem get_adjacent_pixels_spec_witness :
    adjacentPairs 0 0 5 5 = [(0, 1), (1, 0)] ∧ (adjacentPairs 0 0 5 5).length = 2 := by
  have h := get_adjacent_pixels_spec 5 5 0 0 (by norm_num) (by norm_num) (by norm_num)
    (by norm_num) (by norm_num) (by norm_num)
  exact ⟨h.1.trans (by decide), h.2.trans (by decide)⟩

/-! ### `dead_pixels_zero_signal` (source lines 538-563) -/

/-- `dead_pixels_zero_signal(groups, dead_zero_signal_fraction)`: count
the stack entries that are exactly zero at each pixel, divide by the
number of entries, and flag the pixel when that fraction is at least the
threshold.  The group stack is the list of its 2-D layers. -/
def dead_pixels_zero_signal (groups : List ((Nat × Nat) → ℚ))
    (dead_zero_signal_fraction : ℚ) : (Nat × Nat) → Int := fun p =>
  let zero_signal : List Int := groups.map (fun g => if g p = 0 then 1 else 0)
  let total_zeros : Int := zero_signal.sum
  let total_fraction : ℚ := (total_zeros : ℚ) / (groups.length : ℚ)
  if total_fraction ≥ dead_zero_signal_fraction then 1 else 0

/-- The indicator sum over a list equals the count of elements satisfying
the predicate. -/
theorem sum_ite_zero_eq_countP (l : List ((Nat × Nat) → ℚ)) (p : Nat × Nat) :
    (l.map (fun g => if g p = 0 then (1 : Int) else 0)).sum =
      l.countP (fun g => decide (g p = 0)) := by
  induction l with
  | nil => simp
  | cons g t ih =>
    by_cases h : g p = 0
    · simp [List.countP_cons, h, ih]
      exact add_comm 1 _
    · simp [List.countP_cons, h, ih]

/-- C7: a pixel is flagged iff the fraction of stack entries that are
exactly zero there is at least `dead_zero_signal_fraction` (the boundary
is inclusive). -/
theorem dead_pixels_zero_signal_spec (groups : List ((Nat × Nat) → ℚ))
    (frac : ℚ) (p : Nat × Nat) (hne : 0 < groups.length) :
    dead_pixels_zero_signal groups frac p = 1 ↔
      frac ≤ ((groups.countP (fun g => decide (g p = 0)) : ℚ) / (groups.length : ℚ)) := by
  simp only [dead_pixels_zero_signal]
  rw [sum_ite_zero_eq_countP]
  constructor
  · intro h
    by_contra hlt
    rw [if_neg (by push_cast at hlt ⊢; exact fun hge => hlt hge)] at h
    exact absurd h (by norm_num)
  · intro h
    rw [if_pos (by push_cast; exact h)]

/-- A ten-layer stack whose pixel values are zero in exactly nine
layers. -/
def exGroups : List ((Nat × Nat) → ℚ) :=
  List.replicate 9 (fun _ => (0 : ℚ)) ++ [fun _ => (1 : ℚ)]

/-- Witness for C7 at the claim's boundary: nine zeros out of ten flags
the pixel at `fraction = 0.9` and not at `fraction = 0.91`. -/
theorem dead_pixels_zero_signal_spec_witness :
    dead_pixels_zero_signal exGroups (9/10) (0, 0) = 1 ∧
    dead_pixels_zero_signal exGroups (91/100) (0, 0) ≠ 1 := by
  have hcount : exGroups.countP (fun g => decide (g (0, 0) = 0)) = 9 := by
    rw [show exGroups = List.replicate 9 (fun _ => (0 : ℚ)) ++ [fun _ => (1 : ℚ)] from rfl,
      List.countP_append,
      List.countP_eq_length.mpr (by intro g hg; simp [List.eq_of_mem_replicate hg])]
    simp
  have hlen : exGroups.length = 10 := by simp [exGroups]
  constructor
  · refine (dead_pixels_zero_signal_spec exGroups (9/10) (0, 0) (by rw [hlen]; norm_num)).mpr ?_
    rw [hcount, hlen]
    norm_num
  · intro hflag
    have h := (dead_pixels_zero_signal_spec exGroups (91/100) (0, 0)
        (by rw [hlen]; norm_num)).mp hflag
    rw [hcount, hlen] at h
    norm_num at h

/-! ### Normalization selection in `find_bad_pix` (source lines 186-198),
with `image_stats` (source lines 772-795) and `smooth` (source lines
1146-1165) -/

/-- The mean of a list of rationals (`np.nanmean` over the surviving
values; the empty reduction, NaN in the source, is modelled as 0). -/
def listMean (l : List ℚ) : ℚ := l.sum / l.length

/-- The median of a list of rationals (`np.ma.median` and
`np.nanmedian`: the middle of the sorted values, the midpoint of the two
central ones for an even length). -/
def listMedian (l : List ℚ) : ℚ :=
  let s := l.insertionSort (· ≤ ·)
  if s.length = 0 then 0
  else if s.length % 2 = 1 then s.getD (s.length / 2) 0
  else (s.getD (s.length / 2 - 1) 0 + s.getD (s.length / 2) 0) / 2

/-- The population variance (the square of `np.ma.std`, `ddof = 0`).
The standard deviation itself is irrational in general, so the clipping
bound below is compared through squares, which is exact over `ℚ`. -/
def listVariance (l : List ℚ) : ℚ :=
  listMean (l.map (fun x => (x - listMean l) ^ 2))

/-- One pass of `astropy.stats.sigma_clip`: reject the values more than
`sigma` standard deviations from the current median, i.e. keep `x` when
`(x - median)² ≤ σ² · variance`. -/
def clipPass (sigma : ℚ) (l : List ℚ) : List ℚ :=
  l.filter (fun x => decide ((x - listMedian l) ^ 2 ≤ sigma ^ 2 * listVariance l))

/-- `astropy.stats.sigma_clip`: iterate `clipPass` until a pass rejects
nothing, up to the default cap of five iterations, and return the
surviving values. -/
def sigma_clip_values (sigma : ℚ) : Nat → List ℚ → List ℚ
  | 0, l => l
  | n + 1, l =>
    let l2 := clipPass sigma l
    if l2.length = l.length then l else sigma_clip_values sigma n l2

/-- `image_stats(image, sigma)`: sigma-clip the flattened image and take
the mean and the spread of the surviving values (the spread is returned
through the variance, the square of the source's standard deviation; no
claim uses it). -/
def image_stats (image : List (List ℚ)) (sigma : ℚ) : ℚ × ℚ :=
  let kept := sigma_clip_values sigma 5 image.flatten
  (listMean kept, listVariance kept)

/-- Element of a 2-D list image at integer coordinates, with `fill`
outside the bounds (the `boundary='fill'` convolution mode). -/
def getPix (img : List (List ℚ)) (fill : ℚ) (y x : Int) : ℚ :=
  if 0 ≤ y ∧ y < img.length then
    let row := img.getD y.toNat []
    if 0 ≤ x ∧ x < row.length then row.getD x.toNat fill else fill
  else fill

/-- `smooth(data, box_width)`: box convolution of odd side `box_width`
(`astropy.convolution.convolve` with a normalised `Box2DKernel`), with
values outside the array filled by the global median of the data
(`fill_value = np.nanmedian(data)`; the inputs have no NaNs, so
`nan_treatment='interpolate'` changes nothing). -/
def smooth (data : List (List ℚ)) (box_width : Nat) : List (List ℚ) :=
  let fill := listMedian data.flatten
  let half : Nat := box_width / 2
  let side : Nat := 2 * half + 1
  data.mapIdx (fun y row => row.mapIdx (fun x _ =>
    (((List.range side).flatMap (fun dy => (List.range side).map (fun dx =>
      getPix data fill ((y : Int) + dy - half) ((x : Int) + dx - half)))).sum)
      / ((side * side : Nat) : ℚ)))

/-- The normalization-image selection of `find_bad_pix` (source lines
186-195): `'smoothed'` box-smooths the mean image, `'mean'` produces a
constant image at the sigma-clipped (σ = 3) mean, `'none'` an image of
ones; anything else raises `ValueError` before any pixel is processed. -/
def normalization_image (normalization_method : String) (mean_img : List (List ℚ))
    (smoothing_box_width : Nat) : Except String (List (List ℚ)) :=
  if pyLower normalization_method = "smoothed" then
    .ok (smooth mean_img smoothing_box_width)
  else if pyLower normalization_method = "mean" then
    .ok (mean_img.map (fun row => row.map (fun _ => (image_stats mean_img 3).1)))
  else if pyLower normalization_method = "none" then
    .ok (mean_img.map (fun row => row.map (fun _ => (1 : ℚ))))
  else
    .error ("Unknown smoothing option: " ++ normalization_method ++ ".")

/-- Smoothing preserves the shape of the image. -/
theorem smooth_shape (data : List (List ℚ)) (w : Nat) :
    (smooth data w).map List.length = data.map List.length := by
  apply List.ext_getElem
  · simp [smooth]
  · intro i h1 h2
    simp [smooth]

/-- C8: normalization-strategy selection.  `'none'` yields an image of
ones of exactly the mean image's shape, `'mean'` a constant image at the
sigma-clipped (σ = 3) mean of the mean image, again of the same shape;
an unrecognized strategy yields the `ValueError`; and every successful
branch (including `'smoothed'`) preserves the shape exactly. -/
theorem normalization_image_spec (mean_img : List (List ℚ)) (method : String) (w : Nat) :
    (pyLower method = "none" →
      ∃ out, normalization_image method mean_img w = .ok out ∧
        out.map List.length = mean_img.map List.length ∧
        ∀ row ∈ out, ∀ v ∈ row, v = 1) ∧
    (pyLower method = "mean" →
      ∃ out, normalization_image method mean_img w = .ok out ∧
        out.map List.length = mean_img.map List.length ∧
        ∀ row ∈ out, ∀ v ∈ row, v = (image_stats mean_img 3).1) ∧
    (pyLower method ≠ "smoothed" → pyLower method ≠ "mean" → pyLower method ≠ "none" →
      normalization_image method mean_img w =
        .error ("Unknown smoothing option: " ++ method ++ ".")) ∧
    (∀ out, normalization_image method mean_img w = .ok out →
      out.map List.length = mean_img.map List.length) := by
  refine ⟨?_, ?_, ?_, ?_⟩
  · intro h
    refine ⟨mean_img.map (fun row => row.map (fun _ => (1 : ℚ))), ?_, ?_, ?_⟩
    · simp [normalization_image, h]
    · simp [List.map_map, Function.comp_def]
    · intro row hrow v hv
      rcases List.mem_map.mp hrow with ⟨row0, _, rfl⟩
      rcases List.mem_map.mp hv with ⟨v0, _, rfl⟩
      rfl
  · intro h
    refine ⟨mean_img.map (fun row => row.map (fun _ => (image_stats mean_img 3).1)), ?_, ?_, ?_⟩
    · simp [normalization_image, h]
    · simp [List.map_map, Function.comp_def]
    · intro row hrow v hv
      rcases List.mem_map.mp hrow with ⟨row0, _, rfl⟩
      rcases List.mem_map.mp hv with ⟨v0, _, rfl⟩
      rfl
  · intro h1 h2 h3
    simp [normalization_image, h1, h2, h3]
  · intro out hout
    unfold normalization_image at hout
    split_ifs at hout with hs hm hn
    · cases hout
      exact smooth_shape mean_img w
    · cases hout
      simp [List.map_map, Function.comp_def]
    · cases hout
      simp [List.map_map, Function.comp_def]

/-- Witness for C8: an unrecognized strategy name on a concrete image
produces exactly the source's error. -/
theorem normalization_image_spec_witness :
    normalization_image "bogus" [[2, 4], [6, 8]] 15 =
      .error "Unknown smoothing option: bogus." := by
  exact (normalization_image_spec [[2, 4], [6, 8]] "bogus" 15).2.2.1
    (by decide) (by decide) (by decide)

/-! ### `find_open_and_low_qe_pixels` (source lines 592-646) -/

/-- The pixel coordinates of a `ydim × xdim` grid in the row-major order
in which `np.where` reports them. -/
def gridPixels (ydim xdim : Nat) : List (Nat × Nat) :=
  (List.range ydim).flatMap (fun y => (List.range xdim).map (fun x => (y, x)))

/-- The values of `rate_image` at the neighbour coordinates returned by
`get_adjacent_pixels` (`rate_image[adj_pix_y, adj_pix_x]`). -/
def adjacentValues (rate_image : (Nat × Nat) → ℚ) (ydim xdim : Nat) (y x : Nat) : List ℚ :=
  let a := get_adjacent_pixels (x : Int) (y : Int) (xdim : Int) (ydim : Int)
  (a.2.zip a.1).map (fun q => rate_image (q.1.toNat, q.2.toNat))

/-- The open-pixel test of the loop: `all(adj_pix > max_adj_open)`. -/
def allAdjacentHigh (rate_image : (Nat × Nat) → ℚ) (ydim xdim : Nat)
    (max_adj_open : ℚ) (y x : Nat) : Bool :=
  (adjacentValues rate_image ydim xdim y x).all (fun v => decide (v > max_adj_open))

/-- Membership of `q` in the block write
`adj_pix_map[y-1:y+2, x-1:x+2] = 1` under NumPy slice semantics: on the
`y = 0` (or `x = 0`) border the start `-1` wraps to the end of the axis,
which for an axis length of at least 3 makes that axis of the slice
empty. -/
def inBlockWrite (ydim xdim : Nat) (y x : Nat) (q : Nat × Nat) : Bool :=
  pySliceMem ydim ((y : Int) - 1) ((y : Int) + 2) q.1 &&
  pySliceMem xdim ((x : Int) - 1) ((x : Int) + 2) q.2

/-- The three maps built by the loop of `find_open_and_low_qe_pixels`. -/
structure QEMaps where
  low_qe_map : (Nat × Nat) → Int
  open_pix_map : (Nat × Nat) → Int
  adj_pix_map : (Nat × Nat) → Int

/-- The loop body of `find_open_and_low_qe_pixels` at candidate pixel
`p`: if every neighbour value exceeds `max_adj_open`, write the block
slice into `adj_pix_map`, clear the centre (`adj_pix_map[y, x] = 0`),
and set the pixel in `open_pix_map`; otherwise set it in `low_qe_map`. -/
def qeStep (rate_image : (Nat × Nat) → ℚ) (ydim xdim : Nat) (max_adj_open : ℚ)
    (maps : QEMaps) (p : Nat × Nat) : QEMaps :=
  if allAdjacentHigh rate_image ydim xdim max_adj_open p.1 p.2 then
    { maps with
      open_pix_map := fun q => if q = p then 1 else maps.open_pix_map q
      adj_pix_map := fun q =>
        if q = p then 0
        else if inBlockWrite ydim xdim p.1 p.2 q then 1
        else maps.adj_pix_map q }
  else
    { maps with low_qe_map := fun q => if q = p then 1 else maps.low_qe_map q }

/-- The candidate list of the loop: the row-major `np.where` positions
with `max_dead_signal ≤ rate_image < max_low_qe`, taken from the
unmodified input. -/
def qeCandidates (rate_image : (Nat × Nat) → ℚ) (ydim xdim : Nat)
    (max_dead_signal max_low_qe : ℚ) : List (Nat × Nat) :=
  (gridPixels ydim xdim).filter
    (fun p => decide (rate_image p ≥ max_dead_signal ∧ rate_image p < max_low_qe))

/-- `find_open_and_low_qe_pixels(rate_image, ...)`: fold the loop body
over the candidates, starting from all-zero maps. -/
def find_open_and_low_qe_pixels (rate_image : (Nat × Nat) → ℚ) (ydim xdim : Nat)
    (max_dead_signal max_low_qe max_adj_open : ℚ) : QEMaps :=
  (qeCandidates rate_image ydim xdim max_dead_signal max_low_qe).foldl
    (qeStep rate_image ydim xdim max_adj_open)
    ⟨fun _ => 0, fun _ => 0, fun _ => 0⟩

/-- A 4×4 image with a single candidate pixel on the `y = 0` border
(value 1 at `(0, 1)`, value 4 elsewhere). -/
def imgBorder : (Nat × Nat) → ℚ := fun p => if p = (0, 1) then 1 else 4

/-- C5 counterexample: with thresholds `1 ≤ v < 2` and neighbour bound 3,
pixel `(0, 1)` of `imgBorder` is classified OPEN, yet `(1, 1)` — a pixel
of its 3×3 block other than the centre, itself neither a candidate nor
OPEN — is set in no map at all: the block write `adj_pix_map[-1:2, 0:3]`
is an empty slice, so a border OPEN pixel marks no adjacent pixels. -/
theorem find_open_border_cex :
    (find_open_and_low_qe_pixels imgBorder 4 4 1 2 3).open_pix_map (0, 1) = 1 ∧
    (find_open_and_low_qe_pixels imgBorder 4 4 1 2 3).open_pix_map (1, 1) = 0 ∧
    (find_open_and_low_qe_pixels imgBorder 4 4 1 2 3).adj_pix_map (1, 1) = 0 ∧
    (find_open_and_low_qe_pixels imgBorder 4 4 1 2 3).low_qe_map (1, 1) = 0 := by
  decide

/-- A 5×5 image with two diagonally adjacent candidate pixels (value 1
at `(1, 1)` and `(2, 2)`, value 4 elsewhere). -/
def imgDiag : (Nat × Nat) → ℚ := fun p => if p = (1, 1) ∨ p = (2, 2) then 1 else 4

/-- C6 counterexample: in `imgDiag` both `(1, 1)` and `(2, 2)` are OPEN,
and `(2, 2)` lies in the 3×3 block of `(1, 1)`, so the claimed OR of
blocks sets `(2, 2)`; but the later-processed OPEN pixel `(2, 2)` clears
its own centre (`adj_pix_map[y, x] = 0`), so the final AdjOpenMap is 0
there — a bit set by one OPEN pixel's block does not always remain
set. -/
theorem find_open_adj_overlap_cex :
    (find_open_and_low_qe_pixels imgDiag 5 5 1 2 3).open_pix_map (1, 1) = 1 ∧
    (find_open_and_low_qe_pixels imgDiag 5 5 1 2 3).open_pix_map (2, 2) = 1 ∧
    inBlockWrite 5 5 1 1 (2, 2) = true ∧
    ((2, 2) : Nat × Nat) ≠ (1, 1) ∧
    (find_open_and_low_qe_pixels imgDiag 5 5 1 2 3).adj_pix_map (2, 2) = 0 := by
  decide

/-- Folding the loop over `L`: the low-QE map is set exactly at the
visited pixels whose neighbour test fails. -/
theorem qe_foldl_low (ri : (Nat × Nat) → ℚ) (ydim xdim : Nat) (mao : ℚ)
    (L : List (Nat × Nat)) (q : Nat × Nat) :
    ∀ acc : QEMaps, (L.foldl (qeStep ri ydim xdim mao) acc).low_qe_map q =
      if q ∈ L ∧ allAdjacentHigh ri ydim xdim mao q.1 q.2 = false then 1
      else acc.low_qe_map q := by
  induction L with
  | nil => intro acc; simp
  | cons p t ih =>
    intro acc
    rw [List.foldl_cons, ih]
    by_cases hmem : q ∈ t ∧ allAdjacentHigh ri ydim xdim mao q.1 q.2 = false
    · rw [if_pos hmem, if_pos ⟨List.mem_cons_of_mem _ hmem.1, hmem.2⟩]
    · rw [if_neg hmem]
      by_cases hh : allAdjacentHigh ri ydim xdim mao p.1 p.2
      · rw [show (qeStep ri ydim xdim mao acc p).low_qe_map q = acc.low_qe_map q by
          unfold qeStep; rw [if_pos hh]]
        by_cases hq : q = p
        · subst hq
          rw [if_neg (by rintro ⟨-, hf⟩; rw [hh] at hf; cases hf)]
        · have hcond : ¬(q ∈ p :: t ∧ allAdjacentHigh ri ydim xdim mao q.1 q.2 = false) := by
            rintro ⟨hmq, hf⟩
            rcases List.mem_cons.mp hmq with h | h
            · exact hq h
            · exact hmem ⟨h, hf⟩
          rw [if_neg hcond]
      · rw [show (qeStep ri ydim xdim mao acc p).low_qe_map q =
            (if q = p then 1 else acc.low_qe_map q) by unfold qeStep; rw [if_neg hh]]
        by_cases hq : q = p
        · subst hq
          rw [if_pos rfl, if_pos ⟨List.mem_cons_self _ _, by simpa using hh⟩]
        · have hcond : ¬(q ∈ p :: t ∧ allAdjacentHigh ri ydim xdim mao q.1 q.2 = false) := by
            rintro ⟨hmq, hf⟩
            rcases List.mem_cons.mp hmq with h | h
            · exact hq h
            · exact hmem ⟨h, hf⟩
          rw [if_neg hq, if_neg hcond]

/-- Folding the loop over `L`: the open map is set exactly at the visited
pixels whose neighbour test passes. -/
theorem qe_foldl_open (ri : (Nat × Nat) → ℚ) (ydim xdim : Nat) (mao : ℚ)
    (L : List (Nat × Nat)) (q : Nat × Nat) :
    ∀ acc : QEMaps, (L.foldl (qeStep ri ydim xdim mao) acc).open_pix_map q =
      if q ∈ L ∧ allAdjacentHigh ri ydim xdim mao q.1 q.2 = true then 1
      else acc.open_pix_map q := by
  induction L with
  | nil => intro acc; simp
  | cons p t ih =>
    intro acc
    rw [List.foldl_cons, ih]
    by_cases hmem : q ∈ t ∧ allAdjacentHigh ri ydim xdim mao q.1 q.2 = true
    · rw [if_pos hmem, if_pos ⟨List.mem_cons_of_mem _ hmem.1, hmem.2⟩]
    · rw [if_neg hmem]
      by_cases hh : allAdjacentHigh ri ydim xdim mao p.1 p.2
      · rw [show (qeStep ri ydim xdim mao acc p).open_pix_map q =
            (if q = p then 1 else acc.open_pix_map q) by unfold qeStep; rw [if_pos hh]]
        by_cases hq : q = p
        · subst hq
          rw [if_pos rfl, if_pos ⟨List.mem_cons_self _ _, hh⟩]
        · have hcond : ¬(q ∈ p :: t ∧ allAdjacentHigh ri ydim xdim mao q.1 q.2 = true) := by
            rintro ⟨hmq, hf⟩
            rcases List.mem_cons.mp hmq with h | h
            · exact hq h
            · exact hmem ⟨h, hf⟩
          rw [if_neg hq, if_neg hcond]
      · rw [show (qeStep ri ydim xdim mao acc p).open_pix_map q = acc.open_pix_map q by
          unfold qeStep; rw [if_neg hh]]
        by_cases hq : q = p
        · subst hq
          rw [if_neg (by rintro ⟨-, hf⟩; exact hh hf)]
        · have hcond : ¬(q ∈ p :: t ∧ allAdjacentHigh ri ydim xdim mao q.1 q.2 = true) := by
            rintro ⟨hmq, hf⟩
            rcases List.mem_cons.mp hmq with h | h
            · exact hq h
            · exact hmem ⟨h, hf⟩
          rw [if_neg hcond]

/-- The operations touching the adjacency map at pixel `q` during the
processing of an OPEN pixel `p`: the centre clear (`p = q`) or the block
write covering `q`. -/
def adjWriter (ydim xdim : Nat) (q p : Nat × Nat) : Bool :=
  decide (p = q) || inBlockWrite ydim xdim p.1 p.2 q

/-- Folding the loop over `L`: the adjacency map at `q` is decided by the
last OPEN pixel that touched `q` — it is 0 if that pixel is `q` itself
(centre clear), 1 if its block write covers `q`, and the starting value
if no OPEN pixel touched `q`. -/
theorem qe_foldl_adj (ri : (Nat × Nat) → ℚ) (ydim xdim : Nat) (mao : ℚ)
    (L : List (Nat × Nat)) (q : Nat × Nat) :
    ∀ acc : QEMaps, (L.foldl (qeStep ri ydim xdim mao) acc).adj_pix_map q =
      (((L.filter (fun p => allAdjacentHigh ri ydim xdim mao p.1 p.2)).reverse.find?
          (adjWriter ydim xdim q)).elim (acc.adj_pix_map q)
        (fun p => if p = q then 0 else 1)) := by
  induction L with
  | nil => intro acc; simp
  | cons p t ih =>
    intro acc
    rw [List.foldl_cons, ih]
    by_cases hh : allAdjacentHigh ri ydim xdim mao p.1 p.2
    · rw [List.filter_cons, if_pos hh, List.reverse_cons, List.find?_append]
      cases hfind : (t.filter (fun p => allAdjacentHigh ri ydim xdim mao p.1 p.2)).reverse.find?
          (adjWriter ydim xdim q) with
      | some w => simp
      | none =>
        simp only [Option.none_or]
        by_cases hw : adjWriter ydim xdim q p = true
        · rw [List.find?_cons_of_pos _ hw]
          simp only [Option.elim]
          by_cases hq : q = p
          · subst hq
            rw [show (qeStep ri ydim xdim mao acc q).adj_pix_map q = 0 by
              unfold qeStep; rw [if_pos hh]; simp]
            rw [if_pos rfl]
          · have hpq : p ≠ q := fun h => hq h.symm
            have hblock : inBlockWrite ydim xdim p.1 p.2 q = true := by
              rcases Bool.or_eq_true_iff.mp hw with h | h
              · exact absurd (of_decide_eq_true h) hpq
              · exact h
            rw [show (qeStep ri ydim xdim mao acc p).adj_pix_map q = 1 by
              unfold qeStep; rw [if_pos hh]; simp [hq, hblock]]
            rw [if_neg hpq]
        · rw [List.find?_cons_of_neg _ hw, List.find?_nil]
          simp only [Option.elim]
          have hpq : ¬ q = p := by
            intro h
            exact hw (Bool.or_eq_true_iff.mpr (Or.inl (decide_eq_true h.symm)))
          have hblock : inBlockWrite ydim xdim p.1 p.2 q = false := by
            rcases Bool.eq_false_or_eq_true (inBlockWrite ydim xdim p.1 p.2 q) with h | h
            · exact absurd (Bool.or_eq_true_iff.mpr (Or.inr h)) hw
            · exact h
          rw [show (qeStep ri ydim xdim mao acc p).adj_pix_map q = acc.adj_pix_map q by
            unfold qeStep; rw [if_pos hh]; simp [hpq, hblock]]
    · rw [List.filter_cons, if_neg hh]
      rw [show (qeStep ri ydim xdim mao acc p).adj_pix_map = acc.adj_pix_map by
        unfold qeStep; rw [if_neg hh]]

/-- Grid membership is exactly in-bounds membership. -/
theorem mem_gridPixels (ydim xdim : Nat) (q : Nat × Nat) :
    q ∈ gridPixels ydim xdim ↔ q.1 < ydim ∧ q.2 < xdim := by
  constructor
  · intro h
    simp only [gridPixels, List.mem_flatMap, List.mem_map, List.mem_range] at h
    rcases h with ⟨y, hy, x, hx, rfl⟩
    exact ⟨hy, hx⟩
  · rintro ⟨h1, h2⟩
    simp only [gridPixels, List.mem_flatMap, List.mem_map, List.mem_range]
    exact ⟨q.1, h1, q.2, h2, rfl⟩

/-- The grid enumeration has no duplicate coordinates. -/
theorem gridPixels_nodup (ydim xdim : Nat) : (gridPixels ydim xdim).Nodup := by
  unfold gridPixels
  rw [List.nodup_flatMap]
  constructor
  · intro y _
    exact (List.nodup_range xdim).map (fun a b h => ((Prod.mk.injEq _ _ _ _).mp h).2)
  · refine (List.nodup_range ydim).imp ?_
    intro a b hab z hza hzb
    simp only [List.mem_map, List.mem_range] at hza hzb
    rcases hza with ⟨x1, _, rfl⟩
    rcases hzb with ⟨x2, _, hz⟩
    exact hab ((Prod.mk.injEq _ _ _ _).mp hz).1.symm

/-- The candidate predicate of the loop: an in-bounds pixel whose
normalized rate lies in `[max_dead_signal, max_low_qe)`. -/
abbrev isCandidate (rate_image : (Nat × Nat) → ℚ) (ydim xdim : Nat)
    (max_dead_signal max_low_qe : ℚ) (q : Nat × Nat) : Prop :=
  q.1 < ydim ∧ q.2 < xdim ∧ max_dead_signal ≤ rate_image q ∧ rate_image q < max_low_qe

/-- Candidate-list membership is exactly the candidate predicate. -/
theorem mem_qeCandidates (ri : (Nat × Nat) → ℚ) (ydim xdim : Nat) (mds mlq : ℚ)
    (q : Nat × Nat) :
    q ∈ qeCandidates ri ydim xdim mds mlq ↔ isCandidate ri ydim xdim mds mlq q := by
  rw [qeCandidates, List.mem_filter, mem_gridPixels]
  simp [isCandidate, and_assoc, ge_iff_le]

/-- C5 (amended): on images with both dimensions at least 2, the
candidate set is exactly `{q : max_dead_signal ≤ rate < max_low_qe}`
from the unmodified input, each candidate visited once (the candidate
list has no duplicates); the final OpenMap is 1 exactly at candidates
all of whose neighbour values exceed `max_adj_open`; the final LowQEMap
is 1 exactly at the remaining candidates (so no non-candidate is set in
either); and every pixel of an OPEN pixel's block write (empty on the
`y = 0`/`x = 0` borders) other than the centre that is not itself OPEN
is set in the final AdjOpenMap. -/
theorem find_open_and_low_qe_pixels_spec (ri : (Nat × Nat) → ℚ) (ydim xdim : Nat)
    (mds mlq mao : ℚ) (h2y : 2 ≤ ydim) (h2x : 2 ≤ xdim) (hthr : mds < mlq) :
    (qeCandidates ri ydim xdim mds mlq).Nodup ∧
    (∀ q, (find_open_and_low_qe_pixels ri ydim xdim mds mlq mao).open_pix_map q =
      if isCandidate ri ydim xdim mds mlq q ∧
          allAdjacentHigh ri ydim xdim mao q.1 q.2 = true then 1 else 0) ∧
    (∀ q, (find_open_and_low_qe_pixels ri ydim xdim mds mlq mao).low_qe_map q =
      if isCandidate ri ydim xdim mds mlq q ∧
          allAdjacentHigh ri ydim xdim mao q.1 q.2 = false then 1 else 0) ∧
    (∀ p q, isCandidate ri ydim xdim mds mlq p →
      allAdjacentHigh ri ydim xdim mao p.1 p.2 = true →
      inBlockWrite ydim xdim p.1 p.2 q = true → q ≠ p →
      ¬(isCandidate ri ydim xdim mds mlq q ∧ allAdjacentHigh ri ydim xdim mao q.1 q.2 = true) →
      (find_open_and_low_qe_pixels ri ydim xdim mds mlq mao).adj_pix_map q = 1) := by
  refine ⟨List.Nodup.filter _ (gridPixels_nodup ydim xdim), ?_, ?_, ?_⟩
  · intro q
    rw [find_open_and_low_qe_pixels, qe_foldl_open]
    by_cases h : isCandidate ri ydim xdim mds mlq q ∧
        allAdjacentHigh ri ydim xdim mao q.1 q.2 = true
    · rw [if_pos ⟨(mem_qeCandidates ri ydim xdim mds mlq q).mpr h.1, h.2⟩, if_pos h]
    · rw [if_neg (fun hc => h ⟨(mem_qeCandidates ri ydim xdim mds mlq q).mp hc.1, hc.2⟩),
        if_neg h]
  · intro q
    rw [find_open_and_low_qe_pixels, qe_foldl_low]
    by_cases h : isCandidate ri ydim xdim mds mlq q ∧
        allAdjacentHigh ri ydim xdim mao q.1 q.2 = false
    · rw [if_pos ⟨(mem_qeCandidates ri ydim xdim mds mlq q).mpr h.1, h.2⟩, if_pos h]
    · rw [if_neg (fun hc => h ⟨(mem_qeCandidates ri ydim xdim mds mlq q).mp hc.1, hc.2⟩),
        if_neg h]
  · intro p q hcand hhigh hblock hqp hnot
    rw [find_open_and_low_qe_pixels, qe_foldl_adj]
    have hpmem : p ∈ ((qeCandidates ri ydim xdim mds mlq).filter
        (fun p => allAdjacentHigh ri ydim xdim mao p.1 p.2)).reverse := by
      rw [List.mem_reverse, List.mem_filter]
      exact ⟨(mem_qeCandidates ri ydim xdim mds mlq p).mpr hcand, hhigh⟩
    have hwp : adjWriter ydim xdim q p = true :=
      Bool.or_eq_true_iff.mpr (Or.inr hblock)
    cases hfind : ((qeCandidates ri ydim xdim mds mlq).filter
        (fun p => allAdjacentHigh ri ydim xdim mao p.1 p.2)).reverse.find?
        (adjWriter ydim xdim q) with
    | none =>
      exact absurd hwp (List.find?_eq_none.mp hfind p hpmem)
    | some w =>
      have hww : adjWriter ydim xdim q w = true := List.find?_some hfind
      have hwmem : w ∈ (qeCandidates ri ydim xdim mds mlq).filter
          (fun p => allAdjacentHigh ri ydim xdim mao p.1 p.2) :=
        List.mem_reverse.mp (List.mem_of_find?_eq_some hfind)
      have hwq : ¬ w = q := by
        intro he
        subst he
        rw [List.mem_filter, mem_qeCandidates] at hwmem
        exact hnot hwmem
      simp only [Option.elim]
      rw [if_neg hwq]

/-- Witness for C5 on the concrete 5×5 image: the OPEN candidate is set
in OpenMap, a clean pixel is in no map, and an interior block neighbour
of an OPEN pixel is set in AdjOpenMap. -/
theorem find_open_and_low_qe_pixels_spec_witness :
    (find_open_and_low_qe_pixels imgDiag 5 5 1 2 3).open_pix_map (2, 2) = 1 ∧
    (find_open_and_low_qe_pixels imgDiag 5 5 1 2 3).low_qe_map (0, 0) = 0 ∧
    (find_open_and_low_qe_pixels imgDiag 5 5 1 2 3).adj_pix_map (1, 2) = 1 := by
  have h := find_open_and_low_qe_pixels_spec imgDiag 5 5 1 2 3 (by norm_num) (by norm_num)
    (by norm_num)
  refine ⟨(h.2.1 (2, 2)).trans (by decide), (h.2.2.1 (0, 0)).trans (by decide),
    h.2.2.2 (1, 1) (1, 2) (by decide) (by decide) (by decide) (by decide) (by decide)⟩

/-- The OPEN pixels of the run, in processing order: the candidates that
pass the neighbour test. -/
def openPixelList (ri : (Nat × Nat) → ℚ) (ydim xdim : Nat) (mds mlq mao : ℚ) :
    List (Nat × Nat) :=
  (qeCandidates ri ydim xdim mds mlq).filter
    (fun p => allAdjacentHigh ri ydim xdim mao p.1 p.2)

/-- C6 (amended): the final AdjOpenMap at `q` is decided by the last
OPEN pixel (in processing order) that touched `q` — 0 when that pixel is
`q` itself (its centre clear), 1 when its block write covers `q`, 0 when
nothing touched `q`.  Consequently, at every pixel that is not itself
OPEN, the map equals the OR over all OPEN pixels `p` of `p`'s block
write minus its centre. -/
theorem find_open_adj_map_char (ri : (Nat × Nat) → ℚ) (ydim xdim : Nat) (mds mlq mao : ℚ) :
    (∀ q, (find_open_and_low_qe_pixels ri ydim xdim mds mlq mao).adj_pix_map q =
      (((openPixelList ri ydim xdim mds mlq mao).reverse.find? (adjWriter ydim xdim q)).elim 0
        (fun p => if p = q then 0 else 1))) ∧
    (∀ q, q ∉ openPixelList ri ydim xdim mds mlq mao →
      ((find_open_and_low_qe_pixels ri ydim xdim mds mlq mao).adj_pix_map q = 1 ↔
        ∃ p ∈ openPixelList ri ydim xdim mds mlq mao,
          inBlockWrite ydim xdim p.1 p.2 q = true ∧ p ≠ q)) := by
  have hchar : ∀ q, (find_open_and_low_qe_pixels ri ydim xdim mds mlq mao).adj_pix_map q =
      (((openPixelList ri ydim xdim mds mlq mao).reverse.find? (adjWriter ydim xdim q)).elim 0
        (fun p => if p = q then 0 else 1)) := by
    intro q
    rw [find_open_and_low_qe_pixels, qe_foldl_adj]
    rfl
  refine ⟨hchar, ?_⟩
  intro q hq
  rw [hchar q]
  constructor
  · intro h1
    cases hfind : (openPixelList ri ydim xdim mds mlq mao).reverse.find?
        (adjWriter ydim xdim q) with
    | none =>
      rw [hfind] at h1
      exact absurd h1 (by norm_num)
    | some w =>
      rw [hfind] at h1
      simp only [Option.elim] at h1
      have hww : adjWriter ydim xdim q w = true := List.find?_some hfind
      have hwmem : w ∈ openPixelList ri ydim xdim mds mlq mao :=
        List.mem_reverse.mp (List.mem_of_find?_eq_some hfind)
      have hwq : w ≠ q := by
        intro he
        subst he
        exact hq hwmem
      refine ⟨w, hwmem, ?_, hwq⟩
      rcases Bool.or_eq_true_iff.mp hww with h | h
      · exact absurd (of_decide_eq_true h) hwq
      · exact h
  · rintro ⟨p, hpmem, hblock, hpq⟩
    cases hfind : (openPixelList ri ydim xdim mds mlq mao).reverse.find?
        (adjWriter ydim xdim q) with
    | none =>
      exact absurd (Bool.or_eq_true_iff.mpr (Or.inr hblock))
        (List.find?_eq_none.mp hfind p (List.mem_reverse.mpr hpmem))
    | some w =>
      have hwmem : w ∈ openPixelList ri ydim xdim mds mlq mao :=
        List.mem_reverse.mp (List.mem_of_find?_eq_some hfind)
      have hwq : ¬ w = q := by
        intro he
        subst he
        exact hq hwmem
      simp only [Option.elim]
      rw [if_neg hwq]

/-- Witness for C6: on the concrete 5×5 image, pixel `(0, 0)` (not OPEN)
is set in AdjOpenMap because the block write of the OPEN pixel `(1, 1)`
covers it. -/
theorem find_open_adj_map_char_witness :
    (find_open_and_low_qe_pixels imgDiag 5 5 1 2 3).adj_pix_map (0, 0) = 1 := by
  exact ((find_open_adj_map_char imgDiag 5 5 1 2 3).2 (0, 0) (by decide)).mpr
    ⟨(1, 1), by decide, by decide, by decide⟩

/-! ### `combine_individual_maps` (source lines 316-367) -/

/-- The bad-pixel bit definitions of the calibration pipeline
(`jwst.datamodels.dqflags.pixel`, the external enumeration the source
imports): each recognized flag name with its power-of-two bit value
(`GOOD` is 0). -/
def dqflags_pixel : List (String × Int) :=
  [("GOOD", 0), ("DO_NOT_USE", 1), ("SATURATED", 2), ("JUMP_DET", 4), ("DROPOUT", 8),
   ("RESERVED_1", 16), ("RESERVED_2", 32), ("RESERVED_3", 64), ("RESERVED_4", 128),
   ("UNRELIABLE_ERROR", 256), ("NON_SCIENCE", 512), ("DEAD", 1024), ("HOT", 2048),
   ("WARM", 4096), ("LOW_QE", 8192), ("RC", 16384), ("TELEGRAPH", 32768),
   ("NONLINEAR", 65536), ("BAD_REF_PIXEL", 131072), ("NO_FLAT_FIELD", 262144),
   ("NO_GAIN_VALUE", 524288), ("NO_LIN_CORR", 1048576), ("NO_SAT_CHECK", 2097152),
   ("UNRELIABLE_BIAS", 4194304), ("UNRELIABLE_DARK", 8388608),
   ("UNRELIABLE_SLOPE", 16777216), ("UNRELIABLE_FLAT", 33554432), ("OPEN", 67108864),
   ("ADJ_OPEN", 134217728), ("UNRELIABLE_RESET", 268435456),
   ("MSA_FAILED_OPEN", 536870912), ("OTHER_BAD_PIXEL", 1073741824),
   ("REFERENCE_PIXEL", 2147483648)]

/-- Dictionary assignment `defs[k] = v` on an existing key. -/
def setFlagValue (defs : List (String × Int)) (k : String) (v : Int) : List (String × Int) :=
  defs.map (fun e => if e.1 = k then (k, v) else e)

/-- The bit definitions as patched at the top of
`combine_individual_maps`: `dq_defs['REFERENCE_PIXEL'] = 128` and
`dq_defs['RESERVED_4'] = 2147483648`. -/
def dq_defs : List (String × Int) :=
  setFlagValue (setFlagValue dqflags_pixel "REFERENCE_PIXEL" 128) "RESERVED_4" 2147483648

/-- The bit value of a recognized flag name. -/
def dqval (name : String) : Int := (dq_defs.lookup name).getD 0

/-- The first loop's per-entry value at pixel `p` for the do-not-use
entry `f`: the bit value of `f` when `f` has a category map that is
nonzero there. -/
def dnuTerm (bad_maps : List (String × ((Nat × Nat) → Int))) (p : Nat × Nat)
    (f : String) : Int :=
  match bad_maps.lookup f with
  | some m => if m p ≠ 0 then dqval f else 0
  | none => 0

/-- The second loop's per-category value at pixel `p`: the bit value of
a category not listed as do-not-use whose map is nonzero there. -/
def useTerm (do_not_use_flags : List String) (p : Nat × Nat)
    (e : String × ((Nat × Nat) → Int)) : Int :=
  if e.1 ∉ do_not_use_flags ∧ e.2 p ≠ 0 then dqval e.1 else 0

/-- The value of the combined map at one pixel: the first loop sums the
bit values of the do-not-use categories whose map is nonzero there, the
threshold write adds `dq_defs['DO_NOT_USE']` where that sum is nonzero,
the second loop sums the bit values of the remaining categories whose
map is nonzero there, and the final map adds the two. -/
def combine_pixel (bad_maps : List (String × ((Nat × Nat) → Int)))
    (do_not_use_flags : List String) (p : Nat × Nat) : Int :=
  let do_not_use_val : Int := (do_not_use_flags.map (dnuTerm bad_maps p)).sum
  let do_not_use_val' : Int :=
    if do_not_use_val ≠ 0 then do_not_use_val + dqval "DO_NOT_USE" else do_not_use_val
  let use_val : Int := (bad_maps.map (useTerm do_not_use_flags p)).sum
  do_not_use_val' + use_val

/-- `combine_individual_maps(bad_maps, do_not_use_flags)`: raise
`ValueError` on the first do-not-use entry or category name that is not
a recognized flag, otherwise build the combined map pixelwise. -/
def combine_individual_maps (bad_maps : List (String × ((Nat × Nat) → Int)))
    (do_not_use_flags : List String) : Except String ((Nat × Nat) → Int) :=
  match do_not_use_flags.find? (fun f => (dq_defs.lookup f).isNone) with
  | some f => .error ("Unrecognized bad pixel type in do_not_use_list: " ++ f)
  | none =>
    match bad_maps.find? (fun e => (dq_defs.lookup e.1).isNone) with
    | some e => .error ("Unrecognized bad pixel type: " ++ e.1)
    | none => .ok (combine_pixel bad_maps do_not_use_flags)

/-- The dictionary of category maps built by `find_bad_pix` (source
lines 291-293), in its insertion order. -/
def stack_of_maps (dead lowqe openm adjopen refpix unrel : (Nat × Nat) → Int) :
    List (String × ((Nat × Nat) → Int)) :=
  [("DEAD", dead), ("LOW_QE", lowqe), ("OPEN", openm), ("ADJ_OPEN", adjopen),
   ("REFERENCE_PIXEL", refpix), ("UNRELIABLE_SLOPE", unrel)]

/-- A successful lookup's pair is a member of the association list. -/
theorem lookup_mem {β : Type} {l : List (String × β)} {a : String} {b : β}
    (h : l.lookup a = some b) : (a, b) ∈ l := by
  induction l with
  | nil => cases h
  | cons e t ih =>
    obtain ⟨k, v⟩ := e
    cases hak : a == k with
    | true =>
      rw [List.lookup, hak] at h
      cases h
      exact (eq_of_beq hak) ▸ List.mem_cons_self _ _
    | false =>
      rw [List.lookup, hak] at h
      exact List.mem_cons_of_mem _ (ih h)

/-- A member key's lookup succeeds. -/
theorem lookup_isSome_of_mem {β : Type} {l : List (String × β)} {a : String} {b : β}
    (h : (a, b) ∈ l) : (l.lookup a).isSome := by
  induction l with
  | nil => cases h
  | cons e t ih =>
    obtain ⟨k, v⟩ := e
    rcases List.mem_cons.mp h with he | ht
    · rw [List.lookup, show (a == k) = true from beq_iff_eq.mpr (congrArg Prod.fst he)]
      rfl
    · cases hak : a == k
      · rw [List.lookup, hak]
        exact ih ht
      · rw [List.lookup, hak]
        rfl

/-- With duplicate-free keys, lookup returns the member pair's value. -/
theorem lookup_eq_of_mem_nodup {β : Type} {l : List (String × β)}
    (hnd : (l.map Prod.fst).Nodup) {a : String} {b : β} (h : (a, b) ∈ l) :
    l.lookup a = some b := by
  induction l with
  | nil => cases h
  | cons e t ih =>
    obtain ⟨k, v⟩ := e
    rcases List.mem_cons.mp h with he | ht
    · have hak : a = k := congrArg Prod.fst he
      have hbv : b = v := congrArg Prod.snd he
      subst hak
      subst hbv
      rw [List.lookup, beq_self_eq_true]
    · have hk : a ≠ k := by
        intro hak
        subst hak
        rw [List.map_cons, List.nodup_cons] at hnd
        exact hnd.1 (List.mem_map.mpr ⟨(a, b), ht, rfl⟩)
      have hnd' : (t.map Prod.fst).Nodup := by
        rw [List.map_cons, List.nodup_cons] at hnd
        exact hnd.2
      rw [List.lookup, show (a == k) = false from beq_eq_false_iff_ne.mpr hk]
      exact ih hnd' ht

/-- A permutation of an association list with duplicate-free keys does
not change any lookup. -/
theorem lookup_perm {β : Type} : ∀ {l1 l2 : List (String × β)}, l1.Perm l2 →
    (l1.map Prod.fst).Nodup → ∀ a, l1.lookup a = l2.lookup a := by
  intro l1 l2 h
  induction h with
  | nil => exact fun _ _ => rfl
  | cons x h ih =>
    intro hnd a
    obtain ⟨k, v⟩ := x
    have hnd' := (List.nodup_cons.mp (by rw [List.map_cons] at hnd; exact hnd)).2
    cases hak : a == k
    · rw [List.lookup, hak, List.lookup, hak]
      exact ih hnd' a
    · rw [List.lookup, hak, List.lookup, hak]
  | swap x y l =>
    intro hnd a
    obtain ⟨k1, b1⟩ := x
    obtain ⟨k2, b2⟩ := y
    have hne : k2 ≠ k1 := by
      rw [List.map_cons, List.map_cons, List.nodup_cons] at hnd
      exact fun he => hnd.1 (he ▸ List.mem_cons_self _ _)
    cases hab2 : a == k2 <;> cases hab1 : a == k1 <;>
      simp only [List.lookup, hab1, hab2]
    exact absurd ((eq_of_beq hab2).symm.trans (eq_of_beq hab1)) hne
  | trans h1 h2 ih1 ih2 =>
    intro hnd a
    rw [ih1 hnd a, ih2 (((h1.map Prod.fst).nodup_iff).mp hnd) a]

/-- A sum of even integers is even. -/
theorem sum_emod_two_eq_zero {l : List Int} (h : ∀ x ∈ l, x % 2 = 0) : l.sum % 2 = 0 := by
  induction l with
  | nil => simp
  | cons a t ih =>
    rw [List.sum_cons]
    have ha := h a (List.mem_cons_self _ _)
    have ht := ih (fun x hx => h x (List.mem_cons_of_mem _ hx))
    omega

/-- A sum of nonnegative integers is nonzero iff some summand is. -/
theorem sum_ne_zero_iff {l : List Int} (h : ∀ x ∈ l, 0 ≤ x) :
    l.sum ≠ 0 ↔ ∃ x ∈ l, x ≠ 0 := by
  induction l with
  | nil => simp
  | cons a t ih =>
    rw [List.sum_cons]
    have ha := h a (List.mem_cons_self _ _)
    have ht : ∀ x ∈ t, 0 ≤ x := fun x hx => h x (List.mem_cons_of_mem _ hx)
    have hts : 0 ≤ t.sum := List.sum_nonneg ht
    constructor
    · intro hs
      by_cases haz : a = 0
      · subst haz
        rw [zero_add] at hs
        rcases (ih ht).mp hs with ⟨x, hx, hxne⟩
        exact ⟨x, List.mem_cons_of_mem _ hx, hxne⟩
      · exact ⟨a, List.mem_cons_self _ _, haz⟩
    · rintro ⟨x, hx, hxne⟩
      rcases List.mem_cons.mp hx with rfl | hx'
      · omega
      · have := (ih ht).mpr ⟨x, hx', hxne⟩
        omega

/-- A sum of guarded values equals the sum of the values over the
passing elements. -/
theorem sum_map_eq_filter {α : Type} (l : List α) (c : α → Bool) (v t : α → Int)
    (h : ∀ x ∈ l, t x = if c x then v x else 0) :
    (l.map t).sum = (((l.filter c).map v)).sum := by
  induction l with
  | nil => simp
  | cons a s ih =>
    rw [List.map_cons, List.sum_cons, List.filter_cons,
      ih (fun x hx => h x (List.mem_cons_of_mem _ hx)), h a (List.mem_cons_self _ _)]
    by_cases hc : c a
    · rw [if_pos hc, if_pos hc, List.map_cons, List.sum_cons]
    · rw [if_neg hc, if_neg hc, zero_add]

/-- The six category names of the dictionary built by `find_bad_pix`. -/
def sixCategoryNames : List String :=
  ["DEAD", "LOW_QE", "OPEN", "ADJ_OPEN", "REFERENCE_PIXEL", "UNRELIABLE_SLOPE"]

/-- Every flag name that can contribute to a combined map built from the
six-category dictionary. -/
def combineNames : List String := "DO_NOT_USE" :: sixCategoryNames

/-- Whether the do-not-use entry `f` fires at pixel `p`: it has a
category map in `bad_maps` that is nonzero there. -/
def firedB (bad_maps : List (String × ((Nat × Nat) → Int))) (p : Nat × Nat)
    (f : String) : Bool :=
  match bad_maps.lookup f with
  | some m => decide (m p ≠ 0)
  | none => false

theorem dnuTerm_eq_ite (bm : List (String × ((Nat × Nat) → Int))) (p : Nat × Nat)
    (f : String) : dnuTerm bm p f = if firedB bm p f then dqval f else 0 := by
  unfold dnuTerm firedB
  cases bm.lookup f with
  | none => rfl
  | some m =>
    by_cases h : m p ≠ 0
    · simp [h]
    · simp [h]

/-- Parity, sign, and firing characterisation of a first-loop term. -/
theorem dnuTerm_spec (bm : List (String × ((Nat × Nat) → Int)))
    (hbv : ∀ e ∈ bm, dqval e.1 % 2 = 0 ∧ 0 < dqval e.1)
    (hnd : (bm.map Prod.fst).Nodup) (p : Nat × Nat) (f : String) :
    dnuTerm bm p f % 2 = 0 ∧ 0 ≤ dnuTerm bm p f ∧
      (dnuTerm bm p f ≠ 0 ↔ ∃ m, (f, m) ∈ bm ∧ m p ≠ 0) := by
  unfold dnuTerm
  cases hl : bm.lookup f with
  | none =>
    refine ⟨by simp, le_refl 0, ?_⟩
    constructor
    · intro h
      exact absurd rfl h
    · rintro ⟨m, hm, hmp⟩
      have hs := lookup_isSome_of_mem hm
      rw [hl] at hs
      cases hs
  | some m =>
    dsimp only
    have hmem : (f, m) ∈ bm := lookup_mem hl
    have hv := hbv (f, m) hmem
    by_cases hmp : m p ≠ 0
    · rw [if_pos hmp]
      exact ⟨hv.1, le_of_lt hv.2, fun _ => ⟨m, hmem, hmp⟩, fun _ => ne_of_gt hv.2⟩
    · rw [if_neg hmp]
      refine ⟨by simp, le_refl 0, fun h => absurd rfl h, ?_⟩
      rintro ⟨m', hm', hm'p⟩
      have heq : m' = m := by
        have hlk := lookup_eq_of_mem_nodup hnd hm'
        rw [hl] at hlk
        exact (Option.some.inj hlk).symm
      subst heq
      exact absurd hm'p hmp

/-- With every do-not-use entry and every category name recognized, the
combiner succeeds and returns the pixelwise combination. -/
theorem combine_eq_ok (bm : List (String × ((Nat × Nat) → Int))) (dnu : List String)
    (hv : ∀ f ∈ dnu, (dq_defs.lookup f).isSome = true)
    (hbm : ∀ e ∈ bm, (dq_defs.lookup e.1).isSome = true) :
    combine_individual_maps bm dnu = .ok (combine_pixel bm dnu) := by
  have h1 : dnu.find? (fun f => (dq_defs.lookup f).isNone) = none := by
    rw [List.find?_eq_none]
    intro f hf
    have h := hv f hf
    cases hopt : dq_defs.lookup f with
    | none => rw [hopt] at h; cases h
    | some v => simp [hopt]
  have h2 : bm.find? (fun e => (dq_defs.lookup e.1).isNone) = none := by
    rw [List.find?_eq_none]
    intro e he
    have h := hbm e he
    cases hopt : dq_defs.lookup e.1 with
    | none => rw [hopt] at h; cases h
    | some v => simp [hopt]
  rw [combine_individual_maps, h1, h2]

/-- Every entry of the six-category dictionary is recognized, with an
even positive bit value. -/
theorem stack_entry_spec (dead lowqe openm adjopen refpix unrel : (Nat × Nat) → Int) :
    ∀ e ∈ stack_of_maps dead lowqe openm adjopen refpix unrel,
      (dq_defs.lookup e.1).isSome = true ∧ dqval e.1 % 2 = 0 ∧ 0 < dqval e.1 := by
  intro e he
  simp only [stack_of_maps, List.mem_cons, List.not_mem_nil, or_false] at he
  rcases he with rfl | rfl | rfl | rfl | rfl | rfl <;>
    · dsimp only
      exact ⟨by decide, by decide, by decide⟩

/-- The six-category dictionary has duplicate-free keys. -/
theorem stack_keys_nodup (dead lowqe openm adjopen refpix unrel : (Nat × Nat) → Int) :
    ((stack_of_maps dead lowqe openm adjopen refpix unrel).map Prod.fst).Nodup := by
  show sixCategoryNames.Nodup
  decide

/-- C1: for the six-category dictionary and any do-not-use list of
recognized flag names, the combiner succeeds, and at every pixel the
DO_NOT_USE bit (value 1, the parity of the combined value — all category
bit values are even) is set iff at least one do-not-use-listed category
has a nonzero value there in its map. -/
theorem combine_do_not_use_bit (dead lowqe openm adjopen refpix unrel : (Nat × Nat) → Int)
    (dnu : List String)
    (hvalid : ∀ f ∈ dnu, (dq_defs.lookup f).isSome = true) :
    combine_individual_maps (stack_of_maps dead lowqe openm adjopen refpix unrel) dnu =
      .ok (combine_pixel (stack_of_maps dead lowqe openm adjopen refpix unrel) dnu) ∧
    ∀ p, (combine_pixel (stack_of_maps dead lowqe openm adjopen refpix unrel) dnu p % 2 = 1 ↔
      ∃ f ∈ dnu, ∃ m, (f, m) ∈ stack_of_maps dead lowqe openm adjopen refpix unrel ∧
        m p ≠ 0) := by
  have hbv : ∀ e ∈ stack_of_maps dead lowqe openm adjopen refpix unrel,
      dqval e.1 % 2 = 0 ∧ 0 < dqval e.1 :=
    fun e he => (stack_entry_spec dead lowqe openm adjopen refpix unrel e he).2
  have hnd := stack_keys_nodup dead lowqe openm adjopen refpix unrel
  refine ⟨combine_eq_ok _ dnu hvalid
    (fun e he => (stack_entry_spec dead lowqe openm adjopen refpix unrel e he).1), ?_⟩
  intro p
  simp only [combine_pixel]
  set bm := stack_of_maps dead lowqe openm adjopen refpix unrel with hbm
  set S : Int := (dnu.map (dnuTerm bm p)).sum with hS
  set U : Int := (bm.map (useTerm dnu p)).sum with hU
  have hS2 : S % 2 = 0 := by
    rw [hS]
    refine sum_emod_two_eq_zero ?_
    intro x hx
    rcases List.mem_map.mp hx with ⟨f, hf, rfl⟩
    exact (dnuTerm_spec bm hbv hnd p f).1
  have hU2 : U % 2 = 0 := by
    rw [hU]
    refine sum_emod_two_eq_zero ?_
    intro x hx
    rcases List.mem_map.mp hx with ⟨e, he, rfl⟩
    unfold useTerm
    split_ifs
    · exact (hbv e he).1
    · simp
  have hSnn : ∀ x ∈ dnu.map (dnuTerm bm p), 0 ≤ x := by
    intro x hx
    rcases List.mem_map.mp hx with ⟨f, hf, rfl⟩
    exact (dnuTerm_spec bm hbv hnd p f).2.1
  have hiff : S ≠ 0 ↔ ∃ f ∈ dnu, ∃ m, (f, m) ∈ bm ∧ m p ≠ 0 := by
    rw [hS, sum_ne_zero_iff hSnn]
    constructor
    · rintro ⟨x, hx, hxne⟩
      rcases List.mem_map.mp hx with ⟨f, hf, rfl⟩
      exact ⟨f, hf, (dnuTerm_spec bm hbv hnd p f).2.2.mp hxne⟩
    · rintro ⟨f, hf, hm⟩
      exact ⟨dnuTerm bm p f, List.mem_map_of_mem _ hf,
        (dnuTerm_spec bm hbv hnd p f).2.2.mpr hm⟩
  rw [← hiff]
  have hdnuval : dqval "DO_NOT_USE" = 1 := by decide
  by_cases h : S ≠ 0
  · rw [if_pos h, hdnuval]
    exact ⟨fun _ => h, fun _ => by omega⟩
  · rw [if_neg h]
    have h0 : S = 0 := not_not.mp h
    exact ⟨fun hc => by omega, fun hc => absurd hc h⟩

/-- A category map that flags every pixel. -/
def exOne : (Nat × Nat) → Int := fun _ => 1

/-- A category map that flags nothing. -/
def exZero : (Nat × Nat) → Int := fun _ => 0

/-- Witness for C1: with only the DEAD map nonzero and `['DEAD']` as the
do-not-use list, the combined value at a pixel is odd (the DO_NOT_USE
bit is set). -/
theorem combine_do_not_use_bit_witness :
    combine_pixel (stack_of_maps exOne exZero exZero exZero exZero exZero)
      ["DEAD"] (0, 0) % 2 = 1 := by
  exact ((combine_do_not_use_bit exOne exZero exZero exZero exZero exZero ["DEAD"]
      (by decide)).2 (0, 0)).mpr
    ⟨"DEAD", List.mem_cons_self _ _, exOne, List.mem_cons_self _ _, by norm_num [exOne]⟩

theorem useTerm_eq_ite (dnu : List String) (p : Nat × Nat)
    (e : String × ((Nat × Nat) → Int)) :
    useTerm dnu p e =
      if (decide (e.1 ∉ dnu) && decide (e.2 p ≠ 0)) then dqval e.1 else 0 := by
  unfold useTerm
  by_cases h1 : e.1 ∉ dnu <;> by_cases h2 : e.2 p ≠ 0 <;> simp [h1, h2]

/-- A firing do-not-use entry names one of the dictionary's keys. -/
theorem fired_mem_keys {bm : List (String × ((Nat × Nat) → Int))} {p : Nat × Nat}
    {f : String} (h : firedB bm p f = true) : f ∈ bm.map Prod.fst := by
  unfold firedB at h
  cases hl : bm.lookup f with
  | none => rw [hl] at h; cases h
  | some m => exact List.mem_map.mpr ⟨(f, m), lookup_mem hl, rfl⟩

/-- C2: the combined map is invariant under any permutation of the
category dictionary and of the do-not-use set, and every combined pixel
value decomposes as a sum of distinct power-of-two bit values of
distinct registered categories (so every set bit corresponds to exactly
one registered category). -/
theorem combine_perm_invariant_and_bits
    (dead lowqe openm adjopen refpix unrel : (Nat × Nat) → Int)
    (bm2 : List (String × ((Nat × Nat) → Int))) (dnu1 dnu2 : List String)
    (hperm : (stack_of_maps dead lowqe openm adjopen refpix unrel).Perm bm2)
    (hdperm : dnu1.Perm dnu2)
    (hvalid : ∀ f ∈ dnu1, (dq_defs.lookup f).isSome = true)
    (hdnd : dnu1.Nodup) :
    (combine_individual_maps (stack_of_maps dead lowqe openm adjopen refpix unrel) dnu1 =
        .ok (combine_pixel (stack_of_maps dead lowqe openm adjopen refpix unrel) dnu1) ∧
      combine_individual_maps bm2 dnu2 = .ok (combine_pixel bm2 dnu2) ∧
      ∀ p, combine_pixel (stack_of_maps dead lowqe openm adjopen refpix unrel) dnu1 p =
        combine_pixel bm2 dnu2 p) ∧
    (∀ p, ∃ names : List String,
      names.Nodup ∧ (names.map dqval).Nodup ∧
      (∀ f ∈ names, (f, dqval f) ∈ dq_defs ∧ ∃ k : Nat, dqval f = 2 ^ k) ∧
      combine_pixel (stack_of_maps dead lowqe openm adjopen refpix unrel) dnu1 p =
        (names.map dqval).sum) := by
  set bm := stack_of_maps dead lowqe openm adjopen refpix unrel with hbmdef
  have hkeys := stack_keys_nodup dead lowqe openm adjopen refpix unrel
  have hmfst : bm.map Prod.fst = sixCategoryNames := rfl
  have hrec : ∀ e ∈ bm, (dq_defs.lookup e.1).isSome = true :=
    fun e he => (stack_entry_spec dead lowqe openm adjopen refpix unrel e he).1
  have hv2 : ∀ f ∈ dnu2, (dq_defs.lookup f).isSome = true :=
    fun f hf => hvalid f (hdperm.mem_iff.mpr hf)
  have hrec2 : ∀ e ∈ bm2, (dq_defs.lookup e.1).isSome = true :=
    fun e he => hrec e (hperm.mem_iff.mpr he)
  have hlk : ∀ f, bm.lookup f = bm2.lookup f := lookup_perm hperm hkeys
  constructor
  · refine ⟨combine_eq_ok bm dnu1 hvalid hrec, combine_eq_ok bm2 dnu2 hv2 hrec2, ?_⟩
    intro p
    simp only [combine_pixel]
    have hterm : ∀ f ∈ dnu1, dnuTerm bm p f = dnuTerm bm2 p f := by
      intro f _
      unfold dnuTerm
      rw [hlk f]
    have hSeq : (dnu1.map (dnuTerm bm p)).sum = (dnu2.map (dnuTerm bm2 p)).sum := by
      rw [List.map_congr_left hterm]
      exact (hdperm.map (dnuTerm bm2 p)).sum_eq
    have huterm : ∀ e ∈ bm, useTerm dnu1 p e = useTerm dnu2 p e := by
      intro e _
      unfold useTerm
      exact if_congr (and_congr_left' (not_congr hdperm.mem_iff)) rfl rfl
    have hUeq : (bm.map (useTerm dnu1 p)).sum = (bm2.map (useTerm dnu2 p)).sum := by
      rw [List.map_congr_left huterm]
      exact (hperm.map (useTerm dnu2 p)).sum_eq
    rw [hSeq, hUeq]
  · intro p
    simp only [combine_pixel]
    set S : Int := (dnu1.map (dnuTerm bm p)).sum with hS
    set cnd : (String × ((Nat × Nat) → Int)) → Bool :=
      fun e => decide (e.1 ∉ dnu1) && decide (e.2 p ≠ 0) with hcnddef
    set n1 : List String := dnu1.filter (firedB bm p) with hn1def
    set n2 : List String := (if S ≠ 0 then ["DO_NOT_USE"] else []) with hn2def
    set n3 : List String := (bm.filter cnd).map Prod.fst with hn3def
    have hsub1 : ∀ f ∈ n1, f ∈ sixCategoryNames := by
      intro f hf
      have hfired := (List.mem_filter.mp hf).2
      have hmem := fired_mem_keys hfired
      rwa [hmfst] at hmem
    have hsub3 : ∀ f ∈ n3, f ∈ sixCategoryNames := by
      intro f hf
      rcases List.mem_map.mp hf with ⟨e, he, rfl⟩
      have hee : e ∈ bm := (List.mem_filter.mp he).1
      have := List.mem_map_of_mem Prod.fst hee
      rwa [hmfst] at this
    have hmem2 : ∀ f ∈ n2, f = "DO_NOT_USE" := by
      intro f hf
      rw [hn2def] at hf
      revert hf
      split_ifs <;> simp_all
    have hsuball : ∀ f ∈ n1 ++ (n2 ++ n3), f ∈ combineNames := by
      intro f hf
      rcases List.mem_append.mp hf with h1 | h23
      · exact List.mem_cons_of_mem _ (hsub1 f h1)
      · rcases List.mem_append.mp h23 with h2 | h3
        · rw [hmem2 f h2]
          exact List.mem_cons_self _ _
        · exact List.mem_cons_of_mem _ (hsub3 f h3)
    have hn1n : n1.Nodup := hdnd.filter _
    have hn2n : n2.Nodup := by
      rw [hn2def]
      split_ifs <;> simp
    have hn3n : n3.Nodup := by
      have hsl : n3.Sublist (bm.map Prod.fst) := (List.filter_sublist bm).map Prod.fst
      exact List.Nodup.sublist hsl hkeys
    have hd23 : n2.Disjoint n3 := by
      intro a ha hb
      rw [hmem2 a ha] at hb
      exact absurd (hsub3 _ hb) (by decide)
    have hd1_23 : n1.Disjoint (n2 ++ n3) := by
      intro a ha hb
      have hamem : a ∈ dnu1 := (List.mem_filter.mp ha).1
      have hasix := hsub1 a ha
      rcases List.mem_append.mp hb with h2 | h3
      · rw [hmem2 a h2] at hasix
        exact absurd hasix (by decide)
      · rcases List.mem_map.mp h3 with ⟨e, he, rfl⟩
        have hcnd := (List.mem_filter.mp he).2
        rw [hcnddef] at hcnd
        rcases Bool.and_eq_true_iff.mp hcnd with ⟨hnotmem, -⟩
        exact absurd hamem (of_decide_eq_true hnotmem)
    have hndall : (n1 ++ (n2 ++ n3)).Nodup := hn1n.append (hn2n.append hn3n hd23) hd1_23
    have hspec7 : ∀ f ∈ combineNames, (f, dqval f) ∈ dq_defs ∧ ∃ k : Nat, dqval f = 2 ^ k := by
      intro f hf
      fin_cases hf
      · exact ⟨by decide, 0, by decide⟩
      · exact ⟨by decide, 10, by decide⟩
      · exact ⟨by decide, 13, by decide⟩
      · exact ⟨by decide, 26, by decide⟩
      · exact ⟨by decide, 27, by decide⟩
      · exact ⟨by decide, 7, by decide⟩
      · exact ⟨by decide, 24, by decide⟩
    have hinj : ∀ f1 ∈ combineNames, ∀ f2 ∈ combineNames, dqval f1 = dqval f2 → f1 = f2 := by
      decide
    refine ⟨n1 ++ (n2 ++ n3), hndall, ?_, ?_, ?_⟩
    · exact hndall.map_on
        (fun x hx y hy he => hinj x (hsuball x hx) y (hsuball y hy) he)
    · exact fun f hf => hspec7 f (hsuball f hf)
    · rw [List.map_append, List.map_append, List.sum_append, List.sum_append]
      have e1 : (n1.map dqval).sum = S := by
        rw [hS, hn1def]
        exact (sum_map_eq_filter dnu1 (firedB bm p) dqval (dnuTerm bm p)
          (fun f _ => dnuTerm_eq_ite bm p f)).symm
      have e2 : (n2.map dqval).sum = (if S ≠ 0 then dqval "DO_NOT_USE" else 0) := by
        rw [hn2def]
        split_ifs <;> simp
      have e3 : (n3.map dqval).sum = (bm.map (useTerm dnu1 p)).sum := by
        rw [hn3def, List.map_map]
        exact (sum_map_eq_filter bm cnd (dqval ∘ Prod.fst) (useTerm dnu1 p)
          (fun e _ => by rw [useTerm_eq_ite, hcnddef]; rfl)).symm
      rw [e1, e2, e3]
      split_ifs <;> ring

/-- The six-category dictionary of the witness, with only DEAD firing. -/
def exStack : List (String × ((Nat × Nat) → Int)) :=
  stack_of_maps exOne exZero exZero exZero exZero exZero

/-- The same dictionary with its first two entries transposed. -/
def exStackSwapped : List (String × ((Nat × Nat) → Int)) :=
  [("LOW_QE", exZero), ("DEAD", exOne), ("OPEN", exZero), ("ADJ_OPEN", exZero),
   ("REFERENCE_PIXEL", exZero), ("UNRELIABLE_SLOPE", exZero)]

/-- Witness for C2: on a transposed dictionary the combiner still
succeeds and produces the same pixel value. -/
theorem combine_perm_invariant_and_bits_witness :
    combine_pixel exStack ["DEAD"] (0, 0) = combine_pixel exStackSwapped ["DEAD"] (0, 0) ∧
    combine_individual_maps exStackSwapped ["DEAD"] =
      .ok (combine_pixel exStackSwapped ["DEAD"]) := by
  have h := combine_perm_invariant_and_bits exOne exZero exZero exZero exZero exZero
    exStackSwapped ["DEAD"] ["DEAD"]
    (List.Perm.swap ("LOW_QE", exZero) ("DEAD", exOne) _)
    (List.Perm.refl _) (by decide) (by decide)
  exact ⟨h.1.2.2 (0, 0), h.1.2.1⟩
